import Mathlib

/-!
# Verification of the CODE-DNA correlation pipeline

Shallow embedding of the conversation-pairing detector
(`src/detectors/bubblePairDetector.ts`, completion-gated variant), the
diff line-range resolver (`src/utils/gitDiff.ts`), the AI-context
pipeline (`src/detectors/aiContextPipeline.ts`) and the branch
snapshotter (`src/utils/gitCommit.ts`), together with proofs of the
specification's testable properties.
-/

namespace CodeDNA

/-- JS `String.prototype.trim()`: strip leading and trailing whitespace,
modelled on the character list of the string. -/
def strTrim (s : String) : String :=
  String.mk (((s.data.dropWhile Char.isWhitespace).reverse.dropWhile
    Char.isWhitespace).reverse)

/-- JS `String.prototype.startsWith(pre)`, modelled on character lists. -/
def strStartsWith (s pre : String) : Bool :=
  pre.data.isPrefixOf s.data

/-! ## Data model (src/cursor/types.ts)

`Bubble.type` is the TS union `'user' | 'assistant'`; timestamps are
JS millisecond numbers, modelled as `Int`. Only the fields the pairing
and completion logic reads are carried. -/

inductive BubbleType where
  | user
  | assistant
deriving DecidableEq, Repr

structure Bubble where
  bubbleId : String
  composerId : String
  type : BubbleType
  text : String
  createdAt : Int
deriving DecidableEq, Repr

structure UserAssistantPair where
  userBubble : Bubble
  assistantBubbles : List Bubble
deriving DecidableEq, Repr

/-! ## Pairing (BubblePairDetector.pairBubbles)

The TS loop keeps a `currentUser` and accumulates `currentAssistants`;
a user bubble closes the in-progress segment, filtering the accumulated
assistants by non-empty trimmed text and matching `composerId`, and a
segment is pushed only when the filtered list is non-empty. Assistant
bubbles seen before any user bubble are dropped. -/

/-- The filter applied when a segment closes:
`b.text.trim().length > 0 && b.composerId === user.composerId`. -/
def qualifies (u b : Bubble) : Bool :=
  (strTrim b.text).length != 0 && b.composerId == u.composerId

/-- Close the segment of user `u` with accumulated assistants, pushing a
pair in front of the pairs produced by the rest of the scan. -/
def closeSegment (u : Bubble) (currentAssistants : List Bubble)
    (tail : List UserAssistantPair) : List UserAssistantPair :=
  let filteredAssistants := currentAssistants.filter (fun b => qualifies u b)
  if filteredAssistants.isEmpty then tail
  else { userBubble := u, assistantBubbles := filteredAssistants } :: tail

/-- The scan once a `currentUser` exists. -/
def pairLoop (currentUser : Bubble) (currentAssistants : List Bubble) :
    List Bubble → List UserAssistantPair
  | [] => closeSegment currentUser currentAssistants []
  | b :: rest =>
    match b.type with
    | .user => closeSegment currentUser currentAssistants (pairLoop b [] rest)
    | .assistant => pairLoop currentUser (currentAssistants ++ [b]) rest

/-- Source `BubblePairDetector.pairBubbles`: assistant bubbles before the first
user bubble are skipped (`currentUser` still null in the source). -/
def pairBubbles : List Bubble → List UserAssistantPair
  | [] => []
  | b :: rest =>
    match b.type with
    | .user => pairLoop b [] rest
    | .assistant => pairBubbles rest

/-- A bubble that does not close a segment during the scan. -/
def notUser (b : Bubble) : Bool :=
  b.type != BubbleType.user

/-- The pairing invariant's target shape: `p` is a pair whose user turn
sits at some position `i` strictly before an occurrence `j` of the
assistant turn `a`, is a user turn of `a`'s conversation, and no user
turn at all lies strictly between the two — so `p`'s user turn is the
nearest preceding user turn of `a`, in particular the nearest preceding
user turn of the same conversation. -/
def isNearestPrecedingUserPair (bs : List Bubble) (p : UserAssistantPair)
    (a : Bubble) : Prop :=
  ∃ i j : Nat, i < j ∧ bs[i]? = some p.userBubble ∧ bs[j]? = some a ∧
    p.userBubble.type = BubbleType.user ∧
    a.composerId = p.userBubble.composerId ∧
    ∀ k, i < k → k < j → ∀ b, bs[k]? = some b → b.type ≠ BubbleType.user

/-! ## Completion policy (BubblePairDetector.isPairComplete /
filterCompletedPairs, completion-gated variant) -/

/-- Completion wait (페어 완료 대기 시간): `COMPLETION_WAIT_MS = 30000`. -/
def COMPLETION_WAIT_MS : Int := 30000

/-- Source `isPairComplete(pair, isLastPair)` evaluated at wall-clock `now`
(`Date.now()` in the source): no assistants → incomplete; not the last
pair → complete; last pair → complete iff `now - lastAssistant.createdAt
>= COMPLETION_WAIT_MS`. -/
def isPairComplete (now : Int) (pair : UserAssistantPair) (isLastPair : Bool) : Bool :=
  match pair.assistantBubbles.getLast? with
  | none => false
  | some lastAssistant =>
    if !isLastPair then true
    else decide (COMPLETION_WAIT_MS ≤ now - lastAssistant.createdAt)

/-- Source `filterCompletedPairs`: every pair is judged with
`isLastPair = (i == pairs.length - 1)` and kept when complete. -/
def filterCompletedPairs (now : Int) : List UserAssistantPair → List UserAssistantPair
  | [] => []
  | p :: rest =>
    match rest with
    | [] => if isPairComplete now p true then [p] else []
    | _ :: _ =>
      (if isPairComplete now p false then [p] else []) ++ filterCompletedPairs now rest

/-! ## Poll cycle state machine (BubblePairDetector.checkForNewPairs)

One tick of the detector, with the parts that live outside this module
(the workspace lookup, the Cursor DB fetch, the wall clock, exceptions
thrown by the fetch, and the downstream `onNewPair` handler) supplied as
an environment. The mutable fields of the class
(`cache`, `isProcessing`, `pollTickCount`) plus a log of the handler
invocations that ran to completion form the state. -/

structure DetectorState where
  cache : List String
  emitted : List UserAssistantPair
  isProcessing : Bool
  pollTickCount : Nat
deriving DecidableEq, Repr

structure TickEnv where
  composerId : Option String
  bubbles : List Bubble
  now : Int
  fetchThrows : Bool
  handlerOk : UserAssistantPair → Bool

/-- Stable insertion used to model
`allBubbles.sort((a, b) => a.createdAt - b.createdAt)`. -/
def insertByCreatedAt (b : Bubble) : List Bubble → List Bubble
  | [] => [b]
  | x :: xs =>
    if b.createdAt ≤ x.createdAt then b :: x :: xs
    else x :: insertByCreatedAt b xs

def sortByCreatedAt : List Bubble → List Bubble
  | [] => []
  | b :: rest => insertByCreatedAt b (sortByCreatedAt rest)

/-- The emission loop: for each new pair, await the handler, then record
the pair id in the cache. A handler that throws aborts the loop (the
exception lands in the surrounding catch) with that id not recorded. -/
def processPairs (handlerOk : UserAssistantPair → Bool) :
    List UserAssistantPair → DetectorState → DetectorState
  | [], st => st
  | p :: rest, st =>
    if handlerOk p then
      processPairs handlerOk rest
        { st with
          emitted := st.emitted ++ [p],
          cache := st.cache ++ [p.userBubble.bubbleId] }
    else st

/-- Source `checkForNewPairs`: bump the tick counter; skip outright when a
cycle is in flight; otherwise set the single-flight flag, run the body
(any exception is caught), and clear the flag in `finally`. -/
def checkForNewPairs (env : TickEnv) (st : DetectorState) : DetectorState :=
  let st1 := { st with pollTickCount := st.pollTickCount + 1 }
  if st1.isProcessing then st1
  else
    let st2 := { st1 with isProcessing := true }
    let st3 :=
      if env.fetchThrows then st2
      else
        match env.composerId with
        | none => st2
        | some _ =>
          if env.bubbles.isEmpty then st2
          else
            let allBubbles := sortByCreatedAt env.bubbles
            let pairs := pairBubbles allBubbles
            let completedPairs := filterCompletedPairs env.now pairs
            let newPairs := completedPairs.filter
              (fun p => !(st2.cache.contains p.userBubble.bubbleId))
            processPairs env.handlerOk newPairs st2
    { st3 with isProcessing := false }

/-- The new pairs one cycle computes against a given cache. -/
def cycleNewPairs (env : TickEnv) (cache : List String) : List UserAssistantPair :=
  if env.fetchThrows then []
  else
    match env.composerId with
    | none => []
    | some _ =>
      if env.bubbles.isEmpty then []
      else
        (filterCompletedPairs env.now (pairBubbles (sortByCreatedAt env.bubbles))).filter
          (fun p => !(cache.contains p.userBubble.bubbleId))

/-- The pairs whose handler runs to completion in one cycle. -/
def emittedOf (env : TickEnv) (cache : List String) : List UserAssistantPair :=
  (cycleNewPairs env cache).takeWhile env.handlerOk

/-- Pairs emitted between two observations of the state. -/
def newEmissions (before after : DetectorState) : List UserAssistantPair :=
  after.emitted.drop before.emitted.length

/-! ## Concrete data for witnesses -/

def demoUserBubble : Bubble :=
  { bubbleId := "u1", composerId := "c1", type := .user, text := "fix bug", createdAt := 0 }

def demoAssistantBubble : Bubble :=
  { bubbleId := "a1", composerId := "c1", type := .assistant, text := "done", createdAt := 5000 }

def demoState : DetectorState :=
  { cache := [], emitted := [], isProcessing := false, pollTickCount := 0 }

def demoEnv : TickEnv :=
  { composerId := some "c1", bubbles := [demoUserBubble, demoAssistantBubble],
    now := 40000, fetchThrows := false, handlerOk := fun _ => true }

/-! ## Line ranges (src/utils/gitDiff.ts)

A `{ start, end }` object of the source; `end` is a reserved word in
Lean, so the field is called `stop`. Diff line numbers are naturals. -/

structure LineRange where
  start : Nat
  stop : Nat
deriving DecidableEq, Repr

/-- The comparator `(a, b) => a.start - b.start`: order by start. -/
def startLE : LineRange → LineRange → Prop := fun a b => a.start ≤ b.start

instance : DecidableRel startLE := fun a b => Nat.decLe a.start b.start

instance : IsTotal LineRange startLE := ⟨fun a b => Nat.le_total a.start b.start⟩

instance : IsTrans LineRange startLE := ⟨fun _ _ _ => Nat.le_trans⟩

/-- Source `[...ranges].sort((a, b) => a.start - b.start)`: some sort of the
list by start. -/
def sortByStart (l : List LineRange) : List LineRange :=
  l.insertionSort startLE

/-- The merge scan of `mergeAdjacentRanges`: `prev` is the last pushed
range; a current range starting at or before `prev.end + 1` extends it
to `max(prev.end, curr.end)`, otherwise `prev` is emitted and the scan
continues from the current range. -/
def mergeLoop (prev : LineRange) : List LineRange → List LineRange
  | [] => [prev]
  | curr :: rest =>
    if curr.start ≤ prev.stop + 1 then
      mergeLoop { prev with stop := max prev.stop curr.stop } rest
    else
      prev :: mergeLoop curr rest

/-- Source `mergeAdjacentRanges`: lists of length ≤ 1 are returned unchanged;
otherwise sort ascending by start and merge adjacent or overlapping
ranges. -/
def mergeAdjacentRanges (ranges : List LineRange) : List LineRange :=
  if ranges.length ≤ 1 then ranges
  else
    match sortByStart ranges with
    | [] => []
    | s0 :: rest => mergeLoop s0 rest

/-- Output shape of the merge: starts ascending. -/
def sortedByStart (l : List LineRange) : Prop :=
  List.Chain' startLE l

/-- Output shape of the merge: consecutive output ranges are separated
by a gap of at least two lines. -/
def separated (l : List LineRange) : Prop :=
  List.Chain' (fun a b => a.stop + 2 ≤ b.start) l

/-! ## Hunk header parsing (src/utils/gitDiff.ts)

`CHUNK_HEADER = /^@@\s+-\d+(?:,\d+)?\s+\+(\d+)(?:,(\d+))?\s+@@/`,
modelled as a sequential matcher on the character list. Backtracking
never helps this pattern: each `\d+` is followed by a token no digit can
begin, so maximal munch is equivalent, and the optional `,\d+` groups
fail exactly when no digit follows the comma. -/

def digitsVal (ds : List Char) : Nat :=
  ds.foldl (fun acc c => acc * 10 + (c.toNat - '0'.toNat)) 0

/-- Pattern `\d+` with its decimal value (`parseInt(m, 10)`). -/
def parseDigits (cs : List Char) : Option (Nat × List Char) :=
  if (cs.takeWhile Char.isDigit).isEmpty then none
  else some (digitsVal (cs.takeWhile Char.isDigit), cs.dropWhile Char.isDigit)

/-- Pattern `\s+`. -/
def skipWS1 : List Char → Option (List Char)
  | [] => none
  | c :: rest =>
    if c.isWhitespace then some (rest.dropWhile Char.isWhitespace) else none

/-- Pattern `(?:,\d+)?`: consumed only when a comma with at least one digit
follows. -/
def optCommaDigits (cs : List Char) : Option Nat × List Char :=
  match cs with
  | ',' :: rest =>
    match parseDigits rest with
    | some (n, rest2) => (some n, rest2)
    | none => (none, ',' :: rest)
  | _ => (none, cs)

/-- The literal `-` before the old-file numbers. -/
def expectMinus : List Char → Option (List Char)
  | '-' :: r => some r
  | _ => none

/-- The literal `+` before the new-file numbers. -/
def expectPlus : List Char → Option (List Char)
  | '+' :: r => some r
  | _ => none

/-- The closing `@@`; anything after it is ignored, as with the
unanchored end of the regex. -/
def expectAtAt : List Char → Option Unit
  | '@' :: '@' :: _ => some ()
  | _ => none

/-- The whole anchored pattern; returns the two captures `(+c, ,d?)`. -/
def matchChunkHeader (cs : List Char) : Option (Nat × Option Nat) :=
  match cs with
  | '@' :: '@' :: r1 =>
    (skipWS1 r1).bind (fun r2 =>
      (expectMinus r2).bind (fun r3 =>
        (parseDigits r3).bind (fun pr =>
          (skipWS1 (optCommaDigits pr.2).2).bind (fun r6 =>
            (expectPlus r6).bind (fun r7 =>
              (parseDigits r7).bind (fun qr =>
                (skipWS1 (optCommaDigits qr.2).2).bind (fun r10 =>
                  (expectAtAt r10).map (fun _ => (qr.1, (optCommaDigits qr.2).1)))))))))
  | _ => none

/-- Source `extractNewRange`: `start = parseInt(m[1])`,
`count = m[2] ? parseInt(m[2]) : 1`; `count <= 0` yields null, else
`{ start, end: start + count - 1 }`. -/
def extractNewRange (content : String) : Option LineRange :=
  match matchChunkHeader content.data with
  | none => none
  | some (start, m2) =>
    let count := match m2 with | some n => n | none => 1
    if count = 0 then none
    else some { start := start, stop := start + count - 1 }

/-- A parse-diff chunk: structured fields or the literal header line. -/
structure ParsedChunk where
  content : Option String
  newStart : Option Nat
  newLines : Option Nat
deriving DecidableEq, Repr

/-- The per-hunk range derivation inside `lineRangesFromParsed`:
structured `newStart`/`newLines` when both present and `newLines > 0`,
else parse the literal `content` header when it is a string. -/
def chunkRange (c : ParsedChunk) : Option LineRange :=
  match c.newStart, c.newLines with
  | some s, some n =>
    if 0 < n then some { start := s, stop := s + n - 1 }
    else
      match c.content with
      | some str => extractNewRange str
      | none => none
  | _, _ =>
    match c.content with
    | some str => extractNewRange str
    | none => none

/-- An optional `,digits` group of a literal header. -/
def commaPart : Option (List Char) → List Char
  | none => []
  | some ds => ',' :: ds

/-- Builder for literal hunk headers `@@ -a[,b] +c[,d] @@` with
single-space separators, used to state the general parsing theorem. -/
def hunkHeaderChars (a : List Char) (b : Option (List Char))
    (c : List Char) (d : Option (List Char)) : List Char :=
  '@' :: '@' :: ' ' :: '-' ::
    (a ++ (commaPart b ++
      (' ' :: '+' :: (c ++ (commaPart d ++ [' ', '@', '@'])))))

/-! ## Candidate-path fallback (runAiContextPipeline, lines 49-70)

`lineRangesByFile` is a JS object keyed by path; modelled as an
association list with in-place update. -/

def setRanges : List (String × List LineRange) → String → List LineRange →
    List (String × List LineRange)
  | [], k, v => [(k, v)]
  | kv :: rest, k, v =>
    if kv.1 == k then (k, v) :: rest else kv :: setRanges rest k v

def lookupRanges (m : List (String × List LineRange)) (k : String) :
    Option (List LineRange) :=
  (m.find? (fun kv => kv.1 == k)).map (fun kv => kv.2)

/-- One step of the fallback loop:
`if (!p || p.startsWith('.ai-context/')) continue;
lineRangesByFile[p] = [{ start: 1, end: 1 }];`. -/
def synthStep (acc : List (String × List LineRange)) (p : String) :
    List (String × List LineRange) :=
  if p == "" || strStartsWith p ".ai-context/" then acc
  else setRanges acc p [{ start := 1, stop := 1 }]

/-- A candidate path the fallback loop does not skip. -/
def survivesFallback (p : String) : Bool :=
  !(p == "" || strStartsWith p ".ai-context/")

/-- The whole fallback loop over the candidate paths. -/
def synthesizeWholeFileRanges (trackerPaths : List String) :
    List (String × List LineRange) :=
  trackerPaths.foldl synthStep []

/-- The range-selection part of `runAiContextPipeline`: restricted diff
when candidates exist, full working-tree diff when that is empty, and
the whole-file synthesis when both diffs are empty but candidates
exist. -/
def pipelineLineRanges (trackerPaths : List String)
    (restrictedDiff fullDiff : List (String × List LineRange)) :
    List (String × List LineRange) :=
  let l1 := if trackerPaths.length > 0 then restrictedDiff else []
  let l2 := if l1.length = 0 then fullDiff else l1
  if l2.length = 0 ∧ trackerPaths.length > 0 then
    synthesizeWholeFileRanges trackerPaths
  else l2

/-! ## Branch snapshotter (src/utils/gitCommit.ts)

Git commands are modelled through an environment saying which of them
throw; `savedBranchBeforeAiContext` is the module-level variable of the
source. A successful `checkout b` makes `b` the current branch. -/

structure GitEnv where
  aiBranchName : String
  revparseFails : Bool
  branchLocalFails : Bool
  checkoutFails : String → Bool
  commitFails : Bool
  stagedNonempty : Bool
  commitHashValue : String

structure GitState where
  current : String
  branches : List String
  savedBranchBeforeAiContext : Option String
deriving DecidableEq, Repr

/-- Source `ensureAiContextBranch`: read the current branch (this is the first
fallible command, and it runs before the branch is recorded), record it,
then check out the existing branch or create the orphan branch. The
`Except` value is the thrown-or-returned outcome. -/
def ensureAiContextBranch (env : GitEnv) (st : GitState) :
    GitState × Except Unit (String × Bool) :=
  if env.revparseFails then (st, Except.error ())
  else
    let st1 := { st with savedBranchBeforeAiContext := some st.current }
    if env.branchLocalFails then (st1, Except.error ())
    else if st1.branches.contains env.aiBranchName then
      if env.checkoutFails env.aiBranchName then (st1, Except.error ())
      else ({ st1 with current := env.aiBranchName },
        Except.ok (env.aiBranchName, false))
    else
      if env.checkoutFails env.aiBranchName then (st1, Except.error ())
      else ({ st1 with current := env.aiBranchName },
        Except.ok (env.aiBranchName, true))

/-- Source `commitMatchedFiles` wraps every git call in its own try/catch and
returns null on error, on an empty path list, or when nothing staged. -/
def commitMatchedFiles (env : GitEnv) (filePaths : List String) : Option String :=
  if filePaths.isEmpty then none
  else if env.commitFails then none
  else if !env.stagedNonempty then none
  else some env.commitHashValue

/-- Source `restoreBranch`: check out `savedBranchBeforeAiContext ?? 'main'`,
clearing the saved branch in a `finally`. -/
def restoreBranch (env : GitEnv) (st : GitState) : GitState × Except Unit Unit :=
  let target := st.savedBranchBeforeAiContext.getD "main"
  if env.checkoutFails target then
    ({ st with savedBranchBeforeAiContext := none }, Except.error ())
  else
    ({ st with current := target, savedBranchBeforeAiContext := none },
      Except.ok ())

/-- The git section of the pipeline:
`try { ensureAiContextBranch; commitMatchedFiles } catch {}` followed by
`finally { try { restoreBranch } catch {} }`. -/
def gitSnapshotStep (env : GitEnv) (filePaths : List String) (st : GitState) :
    GitState × Option String :=
  let ensured := ensureAiContextBranch env st
  let commitHash :=
    match ensured.2 with
    | Except.error _ => none
    | Except.ok _ => commitMatchedFiles env filePaths
  ((restoreBranch env ensured.1).1, commitHash)

/-! ## Pair pipeline persistence (runAiContextPipelineForPair /
saveEnrichedPairMetadata) -/

structure EnrichedFile where
  filePath : String
  lineRanges : List LineRange
deriving DecidableEq, Repr

structure SavedMetadata where
  bubbleId : String
  composerId : String
  commitHash : Option String
  files : List EnrichedFile
deriving DecidableEq, Repr

/-- The filter at the head of `saveEnrichedPairMetadata`: placeholder
entries and this system's own metadata directory are not persisted. -/
def effectiveFilesOf (changedFiles : List EnrichedFile) : List EnrichedFile :=
  changedFiles.filter (fun f =>
    f.filePath != "" && f.filePath != "(현재 파일 없음)" &&
    f.filePath != "(파일 변경 없음)" &&
    !(strStartsWith f.filePath ".ai-context/"))

/-- Source `saveEnrichedPairMetadata`: nothing is stored when no effective file
remains; otherwise the record is upserted with whatever `commitHash` the
git section produced. -/
def saveEnrichedPairMetadata (userBubble : Bubble)
    (changedFiles : List EnrichedFile) (commitHash : Option String) :
    Option SavedMetadata :=
  let effectiveFiles := effectiveFilesOf changedFiles
  if effectiveFiles.isEmpty then none
  else
    some
      { bubbleId := userBubble.bubbleId
        composerId := userBubble.composerId
        commitHash := commitHash
        files := effectiveFiles }

/-- Source `runAiContextPipelineForPair` after enrichment: attempt the git
section only when some entry is not the no-change placeholder, then
persist. -/
def runPipelineGitAndSave (env : GitEnv) (gitSt : GitState)
    (userBubble : Bubble) (changedFiles : List EnrichedFile) :
    GitState × Option SavedMetadata :=
  let gitAttempted := changedFiles.any (fun f => f.filePath != "(파일 변경 없음)")
  let stepResult :=
    if gitAttempted then
      gitSnapshotStep env (changedFiles.map (fun f => f.filePath)) gitSt
    else (gitSt, none)
  (stepResult.1, saveEnrichedPairMetadata userBubble changedFiles stepResult.2)

/-! ## Concrete git data for witnesses and counterexamples -/

def demoGitEnvRevparseFails : GitEnv :=
  { aiBranchName := "ai-context-user", revparseFails := true,
    branchLocalFails := false, checkoutFails := fun _ => false,
    commitFails := false, stagedNonempty := true,
    commitHashValue := "abc1234" }

def demoGitEnvCheckoutAiFails : GitEnv :=
  { aiBranchName := "ai-context-user", revparseFails := false,
    branchLocalFails := false,
    checkoutFails := fun b => b == "ai-context-user",
    commitFails := false, stagedNonempty := true,
    commitHashValue := "abc1234" }

def demoGitState : GitState :=
  { current := "dev", branches := ["main", "dev"],
    savedBranchBeforeAiContext := none }

def demoChangedFiles : List EnrichedFile :=
  [{ filePath := "a.py", lineRanges := [{ start := 1, stop := 3 }] }]

end CodeDNA

namespace CodeDNA

/-- C2 helper: a non-last pair is judged complete exactly when it has at
least one assistant bubble. -/
theorem isPairComplete_not_last (now : Int) (q : UserAssistantPair) :
    isPairComplete now q false = true ↔ q.assistantBubbles ≠ [] := by
  unfold isPairComplete
  cases hq : q.assistantBubbles.getLast? with
  | none =>
    simp only [List.getLast?_eq_none_iff] at hq
    simp [hq]
  | some lastAssistant =>
    have : q.assistantBubbles ≠ [] := by
      intro h
      rw [h] at hq
      simp at hq
    simp [this]

/-- C2 helper: the last pair is judged complete exactly when it has a
last assistant bubble whose age is at least the threshold. -/
theorem isPairComplete_last (now : Int) (q : UserAssistantPair) :
    isPairComplete now q true = true ↔
      ∃ lastAssistant, q.assistantBubbles.getLast? = some lastAssistant ∧
        COMPLETION_WAIT_MS ≤ now - lastAssistant.createdAt := by
  unfold isPairComplete
  cases hq : q.assistantBubbles.getLast? with
  | none => simp
  | some lastAssistant => simp

/-- C2 helper: the fold of `filterCompletedPairs` over a list with an
explicit last element. -/
theorem filterCompletedPairs_append_last (now : Int)
    (ps : List UserAssistantPair) (q : UserAssistantPair) :
    filterCompletedPairs now (ps ++ [q])
      = ps.filter (fun p => isPairComplete now p false)
        ++ (if isPairComplete now q true then [q] else []) := by
  induction ps with
  | nil => simp [filterCompletedPairs]
  | cons p ps ih =>
    have step : filterCompletedPairs now ((p :: ps) ++ [q])
        = (if isPairComplete now p false then [p] else [])
          ++ filterCompletedPairs now (ps ++ [q]) := by
      cases ps <;> simp [filterCompletedPairs]
    rw [step, ih]
    cases h : isPairComplete now p false <;> simp [h, List.filter]

/-! ## Closed forms for one poll cycle -/

/-- The emission loop appends exactly the longest prefix of new pairs
whose handlers complete, recording their ids in the cache. -/
theorem processPairs_eq (h : UserAssistantPair → Bool)
    (ps : List UserAssistantPair) (st : DetectorState) :
    processPairs h ps st =
      { st with
        emitted := st.emitted ++ ps.takeWhile h,
        cache := st.cache ++ (ps.takeWhile h).map (fun p => p.userBubble.bubbleId) } := by
  induction ps generalizing st with
  | nil => simp [processPairs, List.takeWhile]
  | cons p rest ih =>
    by_cases hp : h p = true
    · simp [processPairs, hp, ih, List.takeWhile_cons]
    · have hp' : h p = false := by simpa using hp
      simp [processPairs, hp', List.takeWhile_cons]

/-- A tick that is not skipped: the counter is bumped, the handled new
pairs are appended to the emission log, their ids to the cache, and the
single-flight flag ends cleared. -/
theorem checkForNewPairs_run (env : TickEnv) (st : DetectorState)
    (hp : st.isProcessing = false) :
    checkForNewPairs env st =
      { st with
        pollTickCount := st.pollTickCount + 1,
        emitted := st.emitted ++ emittedOf env st.cache,
        cache := st.cache ++ (emittedOf env st.cache).map
          (fun p => p.userBubble.bubbleId) } := by
  unfold checkForNewPairs emittedOf cycleNewPairs
  simp only [hp, Bool.false_eq_true, if_false]
  cases hf : env.fetchThrows
  · cases hc : env.composerId with
    | none => simp
    | some c =>
      by_cases hb : env.bubbles.isEmpty
      · simp [hb]
      · simp only [hb, if_false, processPairs_eq]
        simp
  · simp

end CodeDNA

namespace CodeDNA

/-- A handled pair came through the new-pairs filter: its handler
completed and its id was not in the cache the cycle started from. -/
theorem mem_emittedOf (env : TickEnv) (c : List String) (p : UserAssistantPair)
    (h : p ∈ emittedOf env c) :
    env.handlerOk p = true ∧ p.userBubble.bubbleId ∉ c := by
  have h1 := List.mem_takeWhile_imp h
  have h2 : p ∈ cycleNewPairs env c := (List.takeWhile_sublist _).subset h
  refine ⟨h1, ?_⟩
  unfold cycleNewPairs at h2
  cases hf : env.fetchThrows
  · rw [hf] at h2
    cases hc : env.composerId with
    | none => rw [hc] at h2; simp at h2
    | some cid =>
      rw [hc] at h2
      by_cases hb : env.bubbles.isEmpty
      · simp [hb] at h2
      · simp only [hb, Bool.false_eq_true, if_false, if_neg] at h2
        have hnc := (List.mem_filter.mp h2).2
        simp only [Bool.not_eq_true'] at hnc
        intro hmem
        have hcontains : c.contains p.userBubble.bubbleId = true := by
          simp only [List.contains, List.elem_iff]
          exact hmem
        rw [hcontains] at hnc
        exact Bool.noConfusion hnc
  · rw [hf] at h2; simp at h2

/-- The pairs a non-skipped tick emits, read off the state. -/
theorem newEmissions_run (env : TickEnv) (st : DetectorState)
    (hp : st.isProcessing = false) :
    newEmissions st (checkForNewPairs env st) = emittedOf env st.cache := by
  rw [checkForNewPairs_run env st hp]
  unfold newEmissions
  exact List.drop_left _ _

end CodeDNA

namespace CodeDNA

/-- C4: only one poll cycle executes at a time. A tick that fires while
the in-progress flag is set returns after bumping only the tick counter:
no fetch, no emission, no cache change — the tick is skipped, not
queued. When a cycle does run, the flag is cleared when it ends, on the
success path and on every modelled exception path alike. -/
theorem single_flight_guard (env : TickEnv) (st : DetectorState) :
    (st.isProcessing = true →
      checkForNewPairs env st = { st with pollTickCount := st.pollTickCount + 1 })
    ∧ (st.isProcessing = false →
      (checkForNewPairs env st).isProcessing = false) := by
  constructor
  · intro h
    unfold checkForNewPairs
    simp [h]
  · intro h
    rw [checkForNewPairs_run env st h]
    exact h

/-- C3: within one non-skipped poll cycle, every emitted pair's id was
absent from the emitted-id cache before the cycle and present after; the
cache only grows; an id enters the cache only together with a completed
handler run for its pair; and a pair emitted in this cycle is never
emitted again by any later cycle, in particular not by a re-run on an
unchanged turn set. -/
theorem emission_at_most_once (st : DetectorState) (e1 : TickEnv)
    (hp : st.isProcessing = false) :
    (∀ p ∈ newEmissions st (checkForNewPairs e1 st),
        p.userBubble.bubbleId ∉ st.cache ∧
        p.userBubble.bubbleId ∈ (checkForNewPairs e1 st).cache)
    ∧ (∀ s ∈ st.cache, s ∈ (checkForNewPairs e1 st).cache)
    ∧ (∀ bid, bid ∈ (checkForNewPairs e1 st).cache → bid ∉ st.cache →
        ∃ p ∈ newEmissions st (checkForNewPairs e1 st),
          e1.handlerOk p = true ∧ bid = p.userBubble.bubbleId)
    ∧ (∀ e2 : TickEnv, ∀ p ∈ newEmissions st (checkForNewPairs e1 st),
        p ∉ newEmissions (checkForNewPairs e1 st)
          (checkForNewPairs e2 (checkForNewPairs e1 st))) := by
  have hrun := checkForNewPairs_run e1 st hp
  have hnew : newEmissions st (checkForNewPairs e1 st) = emittedOf e1 st.cache :=
    newEmissions_run e1 st hp
  have hcache : (checkForNewPairs e1 st).cache
      = st.cache ++ (emittedOf e1 st.cache).map (fun p => p.userBubble.bubbleId) := by
    rw [hrun]
  refine ⟨?_, ?_, ?_, ?_⟩
  · intro p hpm
    rw [hnew] at hpm
    refine ⟨(mem_emittedOf _ _ _ hpm).2, ?_⟩
    rw [hcache]
    exact List.mem_append_right _ (List.mem_map_of_mem _ hpm)
  · intro s hs
    rw [hcache]
    exact List.mem_append_left _ hs
  · intro bid hin hnot
    rw [hcache] at hin
    rcases List.mem_append.mp hin with hl | hr
    · exact absurd hl hnot
    · obtain ⟨p, hpm, hpe⟩ := List.mem_map.mp hr
      exact ⟨p, by rw [hnew]; exact hpm, (mem_emittedOf _ _ _ hpm).1, hpe.symm⟩
  · intro e2 p hp1 hp2
    have hip1 : (checkForNewPairs e1 st).isProcessing = false := by
      rw [hrun]
      exact hp
    rw [newEmissions_run e2 _ hip1] at hp2
    have h2 := (mem_emittedOf _ _ _ hp2).2
    rw [hnew] at hp1
    exact h2 (by
      rw [hcache]
      exact List.mem_append_right _ (List.mem_map_of_mem _ hp1))

/-- Witness for `emission_at_most_once` at a concrete state and tick. -/
theorem emission_at_most_once_witness :
    demoState.isProcessing = false ∧
    ((∀ p ∈ newEmissions demoState (checkForNewPairs demoEnv demoState),
        p.userBubble.bubbleId ∉ demoState.cache ∧
        p.userBubble.bubbleId ∈ (checkForNewPairs demoEnv demoState).cache)
    ∧ (∀ s ∈ demoState.cache, s ∈ (checkForNewPairs demoEnv demoState).cache)
    ∧ (∀ bid, bid ∈ (checkForNewPairs demoEnv demoState).cache → bid ∉ demoState.cache →
        ∃ p ∈ newEmissions demoState (checkForNewPairs demoEnv demoState),
          demoEnv.handlerOk p = true ∧ bid = p.userBubble.bubbleId)
    ∧ (∀ e2 : TickEnv, ∀ p ∈ newEmissions demoState (checkForNewPairs demoEnv demoState),
        p ∉ newEmissions (checkForNewPairs demoEnv demoState)
          (checkForNewPairs e2 (checkForNewPairs demoEnv demoState)))) :=
  ⟨rfl, emission_at_most_once demoState demoEnv rfl⟩

end CodeDNA

namespace CodeDNA

/-- C2: completion policy of one poll cycle. A non-last pair is COMPLETE
exactly when it has at least one qualifying assistant turn; the last
(most recent) pair is COMPLETE exactly when the wall-clock time since
its last assistant turn's creation is at least the threshold, which is
30000 ms; and the completion filter judges every pair but the final one
as non-last. -/
theorem completion_policy (now : Int) (q : UserAssistantPair)
    (ps : List UserAssistantPair) :
    COMPLETION_WAIT_MS = 30000
    ∧ (isPairComplete now q false = true ↔ q.assistantBubbles ≠ [])
    ∧ (isPairComplete now q true = true ↔
        ∃ lastAssistant, q.assistantBubbles.getLast? = some lastAssistant ∧
          COMPLETION_WAIT_MS ≤ now - lastAssistant.createdAt)
    ∧ filterCompletedPairs now (ps ++ [q])
        = ps.filter (fun p => isPairComplete now p false)
          ++ (if isPairComplete now q true then [q] else []) :=
  ⟨rfl, isPairComplete_not_last now q, isPairComplete_last now q,
    filterCompletedPairs_append_last now ps q⟩

/-! ## The pairing closed form -/

/-- Once a user turn is current, the scan gathers exactly the assistant
turns up to the next user turn, then continues from that user turn. -/
theorem pairLoop_eq (u : Bubble) (rest : List Bubble) (acc : List Bubble) :
    pairLoop u acc rest
      = closeSegment u (acc ++ rest.takeWhile notUser)
          (pairBubbles (rest.dropWhile notUser)) := by
  induction rest generalizing acc with
  | nil => simp [pairLoop, List.takeWhile, List.dropWhile, pairBubbles]
  | cons b t ih =>
    cases hb : b.type with
    | user =>
      have hnu : notUser b = false := by simp [notUser, hb]
      simp [pairLoop, hb, List.takeWhile_cons, List.dropWhile_cons, hnu, pairBubbles]
    | assistant =>
      have hnu : notUser b = true := by simp [notUser, hb]
      simp [pairLoop, hb, ih, List.takeWhile_cons, List.dropWhile_cons, hnu]

/-- Unfolding `pairBubbles` at a user turn. -/
theorem pairBubbles_cons_user (u : Bubble) (hu : u.type = BubbleType.user)
    (t : List Bubble) :
    pairBubbles (u :: t)
      = closeSegment u (t.takeWhile notUser) (pairBubbles (t.dropWhile notUser)) := by
  have : pairBubbles (u :: t) = pairLoop u [] t := by
    unfold pairBubbles
    rw [hu]
  rw [this, pairLoop_eq]
  simp

/-- Unfolding `pairBubbles` at a leading assistant turn. -/
theorem pairBubbles_cons_assistant (b : Bubble)
    (hb : b.type = BubbleType.assistant) (t : List Bubble) :
    pairBubbles (b :: t) = pairBubbles t := by
  have hstep : pairBubbles (b :: t)
      = (match b.type with
        | BubbleType.user => pairLoop b [] t
        | BubbleType.assistant => pairBubbles t) := rfl
  rw [hstep, hb]

end CodeDNA

namespace CodeDNA

/-- Nearest-preceding-user evidence survives prepending one turn. -/
theorem isNearest_cons (x : Bubble) (t : List Bubble) (p : UserAssistantPair)
    (a : Bubble) (h : isNearestPrecedingUserPair t p a) :
    isNearestPrecedingUserPair (x :: t) p a := by
  obtain ⟨i, j, hij, hi, hj, hu, hc, hbet⟩ := h
  refine ⟨i + 1, j + 1, Nat.succ_lt_succ hij, by simpa using hi, by simpa using hj,
    hu, hc, ?_⟩
  intro k hk1 hk2 b hb
  match k, hk1 with
  | k + 1, hk1 =>
    exact hbet k (Nat.lt_of_succ_lt_succ hk1) (Nat.lt_of_succ_lt_succ hk2) b
      (by simpa using hb)

/-- Nearest-preceding-user evidence survives prepending any prefix. -/
theorem isNearest_append (pre t : List Bubble) (p : UserAssistantPair)
    (a : Bubble) (h : isNearestPrecedingUserPair t p a) :
    isNearestPrecedingUserPair (pre ++ t) p a := by
  induction pre with
  | nil => simpa using h
  | cons x xs ih => exact isNearest_cons x (xs ++ t) p a ih

/-- The head pair of the closed form: a qualifying assistant turn from
the segment right after user `u` has `u` as its nearest preceding user
turn. -/
theorem isNearest_head (u : Bubble) (hu : u.type = BubbleType.user)
    (t : List Bubble) (p : UserAssistantPair) (hpu : p.userBubble = u)
    (a : Bubble) (ha : a ∈ t.takeWhile notUser) (hq : qualifies u a = true) :
    isNearestPrecedingUserPair (u :: t) p a := by
  obtain ⟨s, hs⟩ := List.takeWhile_prefix (l := t) (p := notUser)
  obtain ⟨jw, hjw⟩ := List.mem_iff_getElem?.mp ha
  have hjlt : jw < (t.takeWhile notUser).length := by
    by_contra hc
    rw [List.getElem?_eq_none (Nat.le_of_not_lt hc)] at hjw
    exact Option.noConfusion hjw
  have htj : t[jw]? = some a := by
    rw [← hs, List.getElem?_append, if_pos hjlt]
    exact hjw
  have hcomp : a.composerId = u.composerId := by
    have h2 := (Bool.and_eq_true _ _ |>.mp hq).2
    exact beq_iff_eq.mp h2
  refine ⟨0, jw + 1, Nat.succ_pos _, by simp [hpu], by simpa using htj,
    by rw [hpu]; exact hu, by rw [hpu]; exact hcomp, ?_⟩
  intro k hk1 hk2 b hb
  match k, hk1 with
  | m + 1, _ =>
    have hmlt : m < jw := Nat.lt_of_succ_lt_succ hk2
    have htm : t[m]? = some b := by simpa using hb
    have hbw : b ∈ t.takeWhile notUser := by
      refine List.getElem?_mem (n := m) ?_
      rw [← hs, List.getElem?_append, if_pos (Nat.lt_trans hmlt hjlt)] at htm
      exact htm
    have := List.mem_takeWhile_imp hbw
    simp only [notUser, bne_iff_ne, ne_eq] at this
    exact this

end CodeDNA

namespace CodeDNA

/-- Every assistant turn of a produced pair occurs in the scanned list. -/
theorem assistants_subset_aux (n : Nat) :
    ∀ bs : List Bubble, bs.length ≤ n →
      ∀ p ∈ pairBubbles bs, ∀ a ∈ p.assistantBubbles, a ∈ bs := by
  induction n with
  | zero =>
    intro bs hlen
    have hb : bs = [] := List.eq_nil_of_length_eq_zero (Nat.le_zero.mp hlen)
    subst hb
    simp [pairBubbles]
  | succ n ih =>
    intro bs hlen
    match bs with
    | [] => simp [pairBubbles]
    | b :: t =>
      intro p hp a ha
      cases hb : b.type with
      | assistant =>
        rw [pairBubbles_cons_assistant b hb t] at hp
        exact List.mem_cons_of_mem _ (ih t (Nat.le_of_succ_le_succ hlen) p hp a ha)
      | user =>
        rw [pairBubbles_cons_user b hb t] at hp
        simp only [closeSegment] at hp
        have hdlen : (t.dropWhile notUser).length ≤ n :=
          Nat.le_trans (List.dropWhile_sublist notUser).length_le
            (Nat.le_of_succ_le_succ hlen)
        have htail : p ∈ pairBubbles (t.dropWhile notUser) → a ∈ b :: t := by
          intro hp'
          have had := ih (t.dropWhile notUser) hdlen p hp' a ha
          exact List.mem_cons_of_mem _ ((List.dropWhile_sublist notUser).subset had)
        by_cases hfe : ((t.takeWhile notUser).filter (fun x => qualifies b x)).isEmpty
        · rw [if_pos hfe] at hp
          exact htail hp
        · rw [if_neg hfe] at hp
          rcases List.mem_cons.mp hp with hhead | htl
          · subst hhead
            have haw : a ∈ t.takeWhile notUser := (List.mem_filter.mp ha).1
            exact List.mem_cons_of_mem _ ((List.takeWhile_sublist notUser).subset haw)
          · exact htail htl

theorem assistants_subset (bs : List Bubble) :
    ∀ p ∈ pairBubbles bs, ∀ a ∈ p.assistantBubbles, a ∈ bs :=
  assistants_subset_aux bs.length bs (Nat.le_refl _)

/-- Every produced pair is the nearest-preceding-user pair of each of
its assistant turns. -/
theorem near_aux (n : Nat) :
    ∀ bs : List Bubble, bs.length ≤ n →
      ∀ p ∈ pairBubbles bs, ∀ a ∈ p.assistantBubbles,
        isNearestPrecedingUserPair bs p a := by
  induction n with
  | zero =>
    intro bs hlen
    have hb : bs = [] := List.eq_nil_of_length_eq_zero (Nat.le_zero.mp hlen)
    subst hb
    simp [pairBubbles]
  | succ n ih =>
    intro bs hlen
    match bs with
    | [] => simp [pairBubbles]
    | b :: t =>
      intro p hp a ha
      cases hb : b.type with
      | assistant =>
        rw [pairBubbles_cons_assistant b hb t] at hp
        exact isNearest_cons b t p a (ih t (Nat.le_of_succ_le_succ hlen) p hp a ha)
      | user =>
        rw [pairBubbles_cons_user b hb t] at hp
        simp only [closeSegment] at hp
        have hdlen : (t.dropWhile notUser).length ≤ n :=
          Nat.le_trans (List.dropWhile_sublist notUser).length_le
            (Nat.le_of_succ_le_succ hlen)
        have htail : p ∈ pairBubbles (t.dropWhile notUser) →
            isNearestPrecedingUserPair (b :: t) p a := by
          intro hp'
          have hnear := ih (t.dropWhile notUser) hdlen p hp' a ha
          have hsplit : b :: t
              = (b :: t.takeWhile notUser) ++ t.dropWhile notUser := by
            rw [List.cons_append, List.takeWhile_append_dropWhile]
          rw [hsplit]
          exact isNearest_append _ _ p a hnear
        by_cases hfe : ((t.takeWhile notUser).filter (fun x => qualifies b x)).isEmpty
        · rw [if_pos hfe] at hp
          exact htail hp
        · rw [if_neg hfe] at hp
          rcases List.mem_cons.mp hp with hhead | htl
          · subst hhead
            exact isNearest_head b hb t _ rfl a (List.mem_filter.mp ha).1
              (List.mem_filter.mp ha).2
          · exact htail htl

end CodeDNA

namespace CodeDNA

/-- On a duplicate-free turn list, each assistant turn lands in at most
one produced pair. -/
theorem count_aux (n : Nat) :
    ∀ bs : List Bubble, bs.length ≤ n → bs.Nodup → ∀ a : Bubble,
      (pairBubbles bs).countP (fun p => decide (a ∈ p.assistantBubbles)) ≤ 1 := by
  induction n with
  | zero =>
    intro bs hlen _ a
    have hb : bs = [] := List.eq_nil_of_length_eq_zero (Nat.le_zero.mp hlen)
    subst hb
    simp [pairBubbles]
  | succ n ih =>
    intro bs hlen hnd a
    match bs with
    | [] => simp [pairBubbles]
    | b :: t =>
      have hnd_t : t.Nodup := hnd.of_cons
      cases hb : b.type with
      | assistant =>
        rw [pairBubbles_cons_assistant b hb t]
        exact ih t (Nat.le_of_succ_le_succ hlen) hnd_t a
      | user =>
        rw [pairBubbles_cons_user b hb t]
        simp only [closeSegment]
        have hdlen : (t.dropWhile notUser).length ≤ n :=
          Nat.le_trans (List.dropWhile_sublist notUser).length_le
            (Nat.le_of_succ_le_succ hlen)
        have hnd_d : (t.dropWhile notUser).Nodup :=
          (List.dropWhile_sublist notUser).nodup hnd_t
        have htail := ih (t.dropWhile notUser) hdlen hnd_d a
        by_cases hfe : ((t.takeWhile notUser).filter (fun x => qualifies b x)).isEmpty
        · rw [if_pos hfe]
          exact htail
        · rw [if_neg hfe]
          rw [List.countP_cons]
          by_cases hafa : a ∈ (t.takeWhile notUser).filter (fun x => qualifies b x)
          · have h0 : (pairBubbles (t.dropWhile notUser)).countP
                (fun p => decide (a ∈ p.assistantBubbles)) = 0 := by
              rw [List.countP_eq_zero]
              intro p' hp'
              simp only [decide_eq_true_eq]
              intro hmem
              have had : a ∈ t.dropWhile notUser :=
                assistants_subset (t.dropWhile notUser) p' hp' a hmem
              have haw : a ∈ t.takeWhile notUser := (List.mem_filter.mp hafa).1
              have hnd_wd : (t.takeWhile notUser ++ t.dropWhile notUser).Nodup := by
                rw [List.takeWhile_append_dropWhile]
                exact hnd_t
              exact (List.disjoint_of_nodup_append hnd_wd) haw had
            rw [h0]
            simp [hafa]
          · simp only [hafa, decide_eq_true_eq, if_neg]
            simpa using htail

end CodeDNA

namespace CodeDNA

/-- On a duplicate-free list, a value determines its position. -/
theorem nodup_getElem?_inj (l : List Bubble) (h : l.Nodup) (i j : Nat)
    (x : Bubble) (hi : l[i]? = some x) (hj : l[j]? = some x) : i = j := by
  have hlt : i < l.length := by
    by_contra hc
    rw [List.getElem?_eq_none (Nat.le_of_not_lt hc)] at hi
    exact Option.noConfusion hi
  exact List.getElem?_inj hlt h (hi.trans hj.symm)

/-- C1: the pairing invariant. On a turn list with duplicate-free turn
ids, (1) every assistant turn appears in at most one produced pair,
(2) a pair containing an assistant turn is the pair of the nearest
preceding user turn, which belongs to the same conversation, and (3) an
assistant turn preceded by no user turn at all appears in no pair. -/
theorem pairBubbles_pairing_invariant (bs : List Bubble)
    (hnd : (bs.map (fun b => b.bubbleId)).Nodup) :
    (∀ a : Bubble,
        (pairBubbles bs).countP (fun p => decide (a ∈ p.assistantBubbles)) ≤ 1)
    ∧ (∀ p ∈ pairBubbles bs, ∀ a ∈ p.assistantBubbles,
        isNearestPrecedingUserPair bs p a)
    ∧ (∀ (j : Nat) (a : Bubble), bs[j]? = some a →
        (∀ (k : Nat), k < j → ∀ (b : Bubble), bs[k]? = some b →
          b.type ≠ BubbleType.user) →
        ∀ p ∈ pairBubbles bs, a ∉ p.assistantBubbles) := by
  have hndv : bs.Nodup := hnd.of_map _
  refine ⟨fun a => count_aux bs.length bs (Nat.le_refl _) hndv a,
    fun p hp a ha => near_aux bs.length bs (Nat.le_refl _) p hp a ha, ?_⟩
  intro j a hj hnou p hp hmem
  obtain ⟨i', j', hij, hi', hj', hu', _, _⟩ :=
    near_aux bs.length bs (Nat.le_refl _) p hp a hmem
  have hjj : j' = j := nodup_getElem?_inj bs hndv j' j a hj' hj
  subst hjj
  exact (hnou i' hij p.userBubble hi') hu'

/-- Witness for `pairBubbles_pairing_invariant` on a concrete two-turn
conversation. -/
theorem pairBubbles_pairing_invariant_witness :
    (([demoUserBubble, demoAssistantBubble].map (fun b => b.bubbleId)).Nodup) ∧
    ((∀ a : Bubble,
        (pairBubbles [demoUserBubble, demoAssistantBubble]).countP
          (fun p => decide (a ∈ p.assistantBubbles)) ≤ 1)
    ∧ (∀ p ∈ pairBubbles [demoUserBubble, demoAssistantBubble],
        ∀ a ∈ p.assistantBubbles,
        isNearestPrecedingUserPair [demoUserBubble, demoAssistantBubble] p a)
    ∧ (∀ (j : Nat) (a : Bubble), [demoUserBubble, demoAssistantBubble][j]? = some a →
        (∀ (k : Nat), k < j → ∀ (b : Bubble),
          [demoUserBubble, demoAssistantBubble][k]? = some b →
          b.type ≠ BubbleType.user) →
        ∀ p ∈ pairBubbles [demoUserBubble, demoAssistantBubble],
          a ∉ p.assistantBubbles)) :=
  ⟨by decide, pairBubbles_pairing_invariant _ (by decide)⟩

end CodeDNA

namespace CodeDNA

/-- The merge scan of a start-sorted list is start-sorted, leaves gaps
of at least two lines between consecutive outputs, and starts its first
output at the first input's start. -/
theorem mergeLoop_spec (l : List LineRange) (p : LineRange)
    (h : List.Chain' startLE (p :: l)) :
    sortedByStart (mergeLoop p l) ∧ separated (mergeLoop p l) ∧
      ∀ y ∈ (mergeLoop p l).head?, y.start = p.start := by
  induction l generalizing p with
  | nil =>
    refine ⟨List.chain'_singleton p, List.chain'_singleton p, ?_⟩
    intro y hy
    have hml : mergeLoop p [] = [p] := rfl
    rw [hml] at hy
    have hpy : p = y := by simpa using hy
    rw [← hpy]
  | cons curr rest ih =>
    have hpc : startLE p curr := (List.chain'_cons.mp h).1
    have hcr : List.Chain' startLE (curr :: rest) := (List.chain'_cons.mp h).2
    by_cases hm : curr.start ≤ p.stop + 1
    · have hstep : mergeLoop p (curr :: rest)
          = mergeLoop { p with stop := max p.stop curr.stop } rest := by
        simp [mergeLoop, hm]
      have hchain : List.Chain' startLE
          ({ p with stop := max p.stop curr.stop } :: rest) := by
        refine List.chain'_cons'.mpr ⟨?_, hcr.tail⟩
        intro y hy
        have hcy : startLE curr y := (List.chain'_cons'.mp hcr).1 y hy
        exact Nat.le_trans hpc hcy
      rw [hstep]
      exact ih _ hchain
    · have hstep : mergeLoop p (curr :: rest) = p :: mergeLoop curr rest := by
        simp [mergeLoop, hm]
      obtain ⟨hs, hsep, hhead⟩ := ih curr hcr
      rw [hstep]
      refine ⟨?_, ?_, ?_⟩
      · refine List.chain'_cons'.mpr ⟨?_, hs⟩
        intro y hy
        have := hhead y hy
        unfold startLE
        rw [this]
        exact hpc
      · refine List.chain'_cons'.mpr ⟨?_, hsep⟩
        intro y hy
        rw [hhead y hy]
        exact Nat.succ_le_of_lt (Nat.lt_of_not_le hm)
      · intro y hy
        have hpy : p = y := by simpa using hy
        rw [← hpy]

/-- On an already separated list the merge scan changes nothing. -/
theorem mergeLoop_of_separated (l : List LineRange) (p : LineRange)
    (h : separated (p :: l)) : mergeLoop p l = p :: l := by
  induction l generalizing p with
  | nil => rfl
  | cons curr rest ih =>
    have hpc : p.stop + 2 ≤ curr.start := (List.chain'_cons.mp h).1
    have hm : ¬(curr.start ≤ p.stop + 1) := by omega
    have hcr : separated (curr :: rest) := (List.chain'_cons.mp h).2
    simp [mergeLoop, hm, ih curr hcr]

/-- C10: the output of `mergeAdjacentRanges` is canonical — sorted
ascending by start, consecutive output ranges separated by a gap of at
least two lines (`next.start ≥ prev.end + 2`), and the function is
idempotent on its own output. -/
theorem mergeAdjacentRanges_canonical (ranges : List LineRange) :
    sortedByStart (mergeAdjacentRanges ranges) ∧
    separated (mergeAdjacentRanges ranges) ∧
    mergeAdjacentRanges (mergeAdjacentRanges ranges) = mergeAdjacentRanges ranges := by
  by_cases hlen : ranges.length ≤ 1
  · have hout : mergeAdjacentRanges ranges = ranges := by
      unfold mergeAdjacentRanges
      rw [if_pos hlen]
    match ranges, hlen with
    | [], _ =>
      rw [hout]
      exact ⟨List.chain'_nil, List.chain'_nil, by rw [hout]⟩
    | [r], _ =>
      rw [hout]
      exact ⟨List.chain'_singleton r, List.chain'_singleton r, by rw [hout]⟩
  · have hsorted : List.Sorted startLE (sortByStart ranges) :=
      List.sorted_insertionSort startLE ranges
    have hchain : List.Chain' startLE (sortByStart ranges) := hsorted.chain'
    have hlen2 : (sortByStart ranges).length = ranges.length :=
      List.length_insertionSort startLE ranges
    have hout : ∀ s0 rest, sortByStart ranges = s0 :: rest →
        mergeAdjacentRanges ranges = mergeLoop s0 rest := by
      intro s0 rest heq
      unfold mergeAdjacentRanges
      rw [if_neg hlen]
      rw [heq]
    match hsort : sortByStart ranges with
    | [] =>
      rw [hsort] at hlen2
      simp at hlen2
      omega
    | s0 :: rest =>
      have hml := mergeLoop_spec rest s0 (by rw [hsort] at hchain; exact hchain)
      obtain ⟨hs, hsep, _⟩ := hml
      rw [hout s0 rest hsort]
      refine ⟨hs, hsep, ?_⟩
      by_cases hlo : (mergeLoop s0 rest).length ≤ 1
      · unfold mergeAdjacentRanges
        rw [if_pos hlo]
      · have hsort2 : sortByStart (mergeLoop s0 rest) = mergeLoop s0 rest := by
          unfold sortByStart
          exact List.Sorted.insertionSort_eq (List.chain'_iff_pairwise.mp hs)
        unfold mergeAdjacentRanges
        rw [if_neg hlo, hsort2]
        match hm : mergeLoop s0 rest, hsep with
        | [], _ => rfl
        | o0 :: orest, hsep2 => exact mergeLoop_of_separated orest o0 hsep2

/-- C5: two ranges where the second starts at or before one line past
the end of the first merge to a single range from the first start to the
larger end. -/
theorem merge_adjacent_pair (r1 r2 : LineRange)
    (h1 : r1.start ≤ r2.start) (h2 : r2.start ≤ r1.stop + 1) :
    mergeAdjacentRanges [r1, r2]
      = [{ start := r1.start, stop := max r1.stop r2.stop }] := by
  have hsort : sortByStart [r1, r2] = [r1, r2] := by
    unfold sortByStart
    simp [List.insertionSort, List.orderedInsert, h1, startLE]
  unfold mergeAdjacentRanges
  rw [if_neg (by simp)]
  rw [hsort]
  simp [mergeLoop, h2]

/-- Witness for `merge_adjacent_pair`: the spec's example, hunks
`[10,12]` and `[13,15]` merging to `[10,15]`. -/
theorem merge_adjacent_pair_witness :
    ((10 : Nat) ≤ 13 ∧ (13 : Nat) ≤ 12 + 1) ∧
    mergeAdjacentRanges [{ start := 10, stop := 12 }, { start := 13, stop := 15 }]
      = [{ start := 10, stop := 15 }] := by
  refine ⟨⟨by decide, by decide⟩, ?_⟩
  have h := merge_adjacent_pair { start := 10, stop := 12 }
    { start := 13, stop := 15 } (by decide) (by decide)
  simpa using h

end CodeDNA

namespace CodeDNA

/-- Association-list update: reading the written key. -/
theorem lookupRanges_cons (kv : String × List LineRange)
    (l : List (String × List LineRange)) (k : String) :
    lookupRanges (kv :: l) k
      = if kv.1 == k then some kv.2 else lookupRanges l k := by
  unfold lookupRanges
  cases hk : (kv.1 == k) <;> simp [List.find?, hk]

theorem lookupRanges_setRanges_self (m : List (String × List LineRange))
    (k : String) (v : List LineRange) :
    lookupRanges (setRanges m k v) k = some v := by
  induction m with
  | nil => simp [setRanges, lookupRanges_cons, lookupRanges, List.find?]
  | cons kv rest ih =>
    by_cases hk : (kv.1 == k) = true
    · simp [setRanges, hk, lookupRanges_cons]
    · have hk' : (kv.1 == k) = false := by simpa using hk
      simp [setRanges, hk', lookupRanges_cons, ih]

theorem lookupRanges_setRanges_other (m : List (String × List LineRange))
    (k : String) (v : List LineRange) (p : String) (h : p ≠ k) :
    lookupRanges (setRanges m k v) p = lookupRanges m p := by
  have hkp : (k == p) = false := by
    simp only [beq_eq_false_iff_ne, ne_eq]
    exact fun hkp => h hkp.symm
  induction m with
  | nil => simp [setRanges, lookupRanges_cons, lookupRanges, hkp]
  | cons kv rest ih =>
    by_cases hk : (kv.1 == k) = true
    · have hkv : kv.1 = k := beq_iff_eq.mp hk
      simp [setRanges, hk, lookupRanges_cons, hkp, hkv]
    · have hk' : (kv.1 == k) = false := by simpa using hk
      simp only [setRanges, hk', Bool.false_eq_true, if_false]
      rw [lookupRanges_cons, lookupRanges_cons, ih]

/-- What the fallback loop leaves at each key, for any starting
accumulator. -/
theorem synth_fold_lookup (tps : List String)
    (acc : List (String × List LineRange)) (p : String) :
    lookupRanges (tps.foldl synthStep acc) p
      = if p ∈ tps ∧ survivesFallback p = true
        then some [{ start := 1, stop := 1 }]
        else lookupRanges acc p := by
  induction tps generalizing acc with
  | nil => simp
  | cons q rest ih =>
    rw [List.foldl_cons, ih]
    by_cases hmem : p ∈ rest ∧ survivesFallback p = true
    · rw [if_pos hmem, if_pos ⟨List.mem_cons_of_mem q hmem.1, hmem.2⟩]
    · rw [if_neg hmem]
      by_cases hpq : p = q
      · subst hpq
        by_cases hs : survivesFallback p = true
        · have hstep : synthStep acc p = setRanges acc p [{ start := 1, stop := 1 }] := by
            unfold synthStep survivesFallback at *
            rcases hb : (p == "" || strStartsWith p ".ai-context/") with _ | _
            · simp
            · rw [hb] at hs
              simp at hs
          rw [if_pos ⟨List.mem_cons_self p rest, hs⟩, hstep,
            lookupRanges_setRanges_self]
        · have hs' : survivesFallback p = false := by simpa using hs
          have hstep : synthStep acc p = acc := by
            unfold synthStep survivesFallback at *
            rcases hb : (p == "" || strStartsWith p ".ai-context/") with _ | _
            · rw [hb] at hs'
              simp at hs'
            · simp
          rw [hstep, if_neg]
          intro hcon
          exact hs hcon.2
      · have hcon : ¬(p ∈ q :: rest ∧ survivesFallback p = true) := by
          intro hcon
          rcases List.mem_cons.mp hcon.1 with h | h
          · exact hpq h
          · exact hmem ⟨h, hcon.2⟩
        rw [if_neg hcon]
        unfold synthStep
        by_cases hq : (q == "" || strStartsWith q ".ai-context/") = true
        · rw [if_pos hq]
        · rw [if_neg hq, lookupRanges_setRanges_other _ _ _ _ hpq]

end CodeDNA

namespace CodeDNA

/-- C7 counterexample: a non-empty candidate set whose only path lies
under the system's own metadata directory gets no synthesized range —
the claim's "for every candidate path" fails and the correlation is
dropped (the resulting map is empty). -/
theorem whole_file_fallback_counterexample :
    ([".ai-context/x"] : List String) ≠ []
    ∧ lookupRanges (pipelineLineRanges [".ai-context/x"] [] []) ".ai-context/x" = none
    ∧ pipelineLineRanges [".ai-context/x"] [] [] = [] := by
  refine ⟨by simp, by decide, by decide⟩

/-- C7 as amended: when both diffs parse to zero files and the candidate
set is non-empty, the pipeline synthesizes the whole-file range `[1,1]`
for every candidate path that is non-empty and not under `.ai-context/`;
candidates failing that test are skipped and get no entry. -/
theorem whole_file_fallback_amended (tps : List String) (h1 : tps ≠ []) :
    (∀ p ∈ tps, survivesFallback p = true →
        lookupRanges (pipelineLineRanges tps [] []) p
          = some [{ start := 1, stop := 1 }])
    ∧ (∀ p ∈ tps, survivesFallback p = false →
        lookupRanges (pipelineLineRanges tps [] []) p = none) := by
  have hlen : tps.length > 0 := List.length_pos.mpr h1
  have hpipe : pipelineLineRanges tps [] [] = synthesizeWholeFileRanges tps := by
    unfold pipelineLineRanges
    simp [hlen]
  constructor
  · intro p hp hs
    rw [hpipe]
    unfold synthesizeWholeFileRanges
    rw [synth_fold_lookup, if_pos ⟨hp, hs⟩]
  · intro p hp hs
    rw [hpipe]
    unfold synthesizeWholeFileRanges
    rw [synth_fold_lookup, if_neg (fun hcon => by rw [hs] at hcon; exact Bool.noConfusion hcon.2)]
    rfl

/-- Witness for `whole_file_fallback_amended` with candidate `a.py`. -/
theorem whole_file_fallback_witness :
    (["a.py"] : List String) ≠ [] ∧
    ((∀ p ∈ ["a.py"], survivesFallback p = true →
        lookupRanges (pipelineLineRanges ["a.py"] [] []) p
          = some [{ start := 1, stop := 1 }])
    ∧ (∀ p ∈ ["a.py"], survivesFallback p = false →
        lookupRanges (pipelineLineRanges ["a.py"] [] []) p = none)) :=
  ⟨by simp, whole_file_fallback_amended ["a.py"] (by simp)⟩

end CodeDNA

namespace CodeDNA

/-- When the initial branch lookup succeeds, the prior branch is
recorded before any switch, whatever happens afterwards. -/
theorem ensure_saves_current (env : GitEnv) (st : GitState)
    (hrev : env.revparseFails = false) :
    (ensureAiContextBranch env st).1.savedBranchBeforeAiContext
      = some st.current := by
  unfold ensureAiContextBranch
  rw [hrev]
  simp only [Bool.false_eq_true, if_false]
  split
  · rfl
  · split
    · split
      · rfl
      · rfl
    · split
      · rfl
      · rfl

/-- Source `restoreBranch` clears the saved branch on both of its exit paths. -/
theorem restore_clears (env : GitEnv) (st : GitState) :
    (restoreBranch env st).1.savedBranchBeforeAiContext = none := by
  unfold restoreBranch
  by_cases hc : env.checkoutFails (st.savedBranchBeforeAiContext.getD "main") = true
  · rw [if_pos hc]
  · rw [if_neg hc]

/-- A successful restoration checkout lands on the recorded branch. -/
theorem restore_ok (env : GitEnv) (st : GitState) (b : String)
    (hsome : st.savedBranchBeforeAiContext = some b)
    (hc : env.checkoutFails b = false) :
    (restoreBranch env st).1.current = b := by
  unfold restoreBranch
  rw [hsome]
  simp only [Option.getD_some]
  rw [hc]
  simp

/-- C8 as amended: provided the initial current-branch lookup succeeds
(so the prior branch is recorded) and the restoration checkout itself
succeeds, the active branch after the snapshot step equals the branch
active before it — whatever the branch-local listing, the ai-context
checkout or the commit did — and the saved-branch slot is cleared on
every exit path. -/
theorem branch_restoration_amended (env : GitEnv) (filePaths : List String)
    (st : GitState) (hrev : env.revparseFails = false)
    (hres : env.checkoutFails st.current = false) :
    (gitSnapshotStep env filePaths st).1.current = st.current
    ∧ (gitSnapshotStep env filePaths st).1.savedBranchBeforeAiContext = none := by
  have hsaved := ensure_saves_current env st hrev
  constructor
  · show (restoreBranch env (ensureAiContextBranch env st).1).1.current = st.current
    exact restore_ok env _ st.current hsaved hres
  · show (restoreBranch env (ensureAiContextBranch env st).1).1.savedBranchBeforeAiContext
      = none
    exact restore_clears env _

/-- C8 counterexample: if the very first command of the snapshot step —
the `rev-parse` that reads the current branch — throws before the branch
is recorded, the guaranteed restoration checks out the `'main'`
fallback: starting from branch `dev` with every checkout succeeding, the
run ends on `main`, not on the prior branch. -/
theorem branch_restoration_counterexample :
    (gitSnapshotStep demoGitEnvRevparseFails ["a.py"] demoGitState).1.current
        ≠ demoGitState.current
    ∧ (gitSnapshotStep demoGitEnvRevparseFails ["a.py"] demoGitState).1.current
        = "main"
    ∧ demoGitState.current = "dev" := by
  refine ⟨by decide, by decide, rfl⟩

/-- Witness for `branch_restoration_amended`: the ai-context checkout
throws, yet the run ends back on `dev` with the saved slot cleared. -/
theorem branch_restoration_witness :
    demoGitEnvCheckoutAiFails.revparseFails = false ∧
    demoGitEnvCheckoutAiFails.checkoutFails demoGitState.current = false ∧
    ((gitSnapshotStep demoGitEnvCheckoutAiFails ["a.py"] demoGitState).1.current
        = demoGitState.current
    ∧ (gitSnapshotStep demoGitEnvCheckoutAiFails ["a.py"]
        demoGitState).1.savedBranchBeforeAiContext = none) :=
  ⟨rfl, by decide, branch_restoration_amended demoGitEnvCheckoutAiFails ["a.py"]
    demoGitState rfl (by decide)⟩

end CodeDNA

namespace CodeDNA

/-- Under any modelled git failure — branch lookup, branch listing,
checkout of the ai-context branch, or the commit — the snapshot step
yields no commit hash. -/
theorem gitSnapshotStep_hash_none (env : GitEnv) (fps : List String)
    (st : GitState)
    (hfail : env.revparseFails = true ∨ env.branchLocalFails = true ∨
      env.checkoutFails env.aiBranchName = true ∨ env.commitFails = true) :
    (gitSnapshotStep env fps st).2 = none := by
  show (match (ensureAiContextBranch env st).2 with
    | Except.error _ => none
    | Except.ok _ => commitMatchedFiles env fps) = none
  rcases hfail with h | h | h | h
  · unfold ensureAiContextBranch
    rw [h]
    simp
  · unfold ensureAiContextBranch
    cases hr : env.revparseFails
    · simp only [Bool.false_eq_true, if_false]
      rw [h]
      simp
    · simp
  · unfold ensureAiContextBranch
    cases hr : env.revparseFails
    · simp only [Bool.false_eq_true, if_false]
      cases hbl : env.branchLocalFails
      · simp only [Bool.false_eq_true, if_false]
        by_cases hc : st.branches.contains env.aiBranchName = true
        · simp [hc, h]
        · simp [hc, h]
      · simp
    · simp
  · cases he : (ensureAiContextBranch env st).2 with
    | error e => rfl
    | ok v =>
      unfold commitMatchedFiles
      rw [h]
      simp

/-- C9: whenever any error occurs during branch creation/checkout or
during the commit, the error is caught and the enriched correlation
record is still persisted, with no commit hash attached. The changed
files contain at least one genuine path (non-empty, not a placeholder,
not under `.ai-context/` — the Change Log never reports paths under the
metadata directory), which is also what makes the git section run. -/
theorem git_failure_still_persists (env : GitEnv) (gitSt : GitState)
    (u : Bubble) (changedFiles : List EnrichedFile)
    (hfail : env.revparseFails = true ∨ env.branchLocalFails = true ∨
      env.checkoutFails env.aiBranchName = true ∨ env.commitFails = true)
    (hsome : ∃ f ∈ changedFiles, f.filePath ≠ "(파일 변경 없음)" ∧
      f.filePath ≠ "" ∧ f.filePath ≠ "(현재 파일 없음)" ∧
      strStartsWith f.filePath ".ai-context/" = false) :
    ∃ r, (runPipelineGitAndSave env gitSt u changedFiles).2 = some r ∧
      r.commitHash = none := by
  obtain ⟨f, hf, hne1, hne2, hne3, hne4⟩ := hsome
  have hattempt : changedFiles.any (fun f => f.filePath != "(파일 변경 없음)") = true := by
    rw [List.any_eq_true]
    exact ⟨f, hf, by simpa using hne1⟩
  have hmain : (runPipelineGitAndSave env gitSt u changedFiles).2
      = saveEnrichedPairMetadata u changedFiles none := by
    unfold runPipelineGitAndSave
    rw [hattempt]
    simp only [if_true]
    rw [gitSnapshotStep_hash_none env _ gitSt hfail]
  rw [hmain]
  have hfmem : f ∈ effectiveFilesOf changedFiles := by
    unfold effectiveFilesOf
    rw [List.mem_filter]
    refine ⟨hf, ?_⟩
    simp [hne1, hne2, hne3, hne4]
  have heff : (effectiveFilesOf changedFiles).isEmpty = false := by
    cases hl : effectiveFilesOf changedFiles with
    | nil =>
      rw [hl] at hfmem
      exact absurd hfmem (by simp)
    | cons x xs => rfl
  unfold saveEnrichedPairMetadata
  simp only [heff, Bool.false_eq_true, if_false]
  exact ⟨_, rfl, rfl⟩

/-- Witness for `git_failure_still_persists`: the branch lookup throws,
the record for `a.py` is still saved, hash-less. -/
theorem git_failure_still_persists_witness :
    (demoGitEnvRevparseFails.revparseFails = true ∨
      demoGitEnvRevparseFails.branchLocalFails = true ∨
      demoGitEnvRevparseFails.checkoutFails demoGitEnvRevparseFails.aiBranchName = true ∨
      demoGitEnvRevparseFails.commitFails = true) ∧
    (∃ f ∈ demoChangedFiles, f.filePath ≠ "(파일 변경 없음)" ∧
      f.filePath ≠ "" ∧ f.filePath ≠ "(현재 파일 없음)" ∧
      strStartsWith f.filePath ".ai-context/" = false) ∧
    (∃ r, (runPipelineGitAndSave demoGitEnvRevparseFails demoGitState
        demoUserBubble demoChangedFiles).2 = some r ∧ r.commitHash = none) :=
  ⟨Or.inl rfl, by decide,
    git_failure_still_persists demoGitEnvRevparseFails demoGitState
      demoUserBubble demoChangedFiles (Or.inl rfl) (by decide)⟩

end CodeDNA

namespace CodeDNA

theorem dropWhile_head_false (p : Char → Bool) (l : List Char)
    (h : ∀ c, l.head? = some c → p c = false) : l.dropWhile p = l := by
  cases l with
  | nil => rfl
  | cons c t =>
    have hc := h c rfl
    simp [List.dropWhile_cons, hc]

theorem takeWhile_all_append (p : Char → Bool) (ds rest : List Char)
    (hall : ∀ c ∈ ds, p c = true)
    (hrest : ∀ c, rest.head? = some c → p c = false) :
    (ds ++ rest).takeWhile p = ds ∧ (ds ++ rest).dropWhile p = rest := by
  induction ds with
  | nil =>
    refine ⟨?_, dropWhile_head_false p rest hrest⟩
    cases rest with
    | nil => rfl
    | cons c t =>
      have hc := hrest c rfl
      simp [List.takeWhile_cons, hc]
  | cons d ds' ih =>
    have hd : p d = true := hall d (List.mem_cons_self d ds')
    have hall' : ∀ c ∈ ds', p c = true := fun c hc =>
      hall c (List.mem_cons_of_mem d hc)
    obtain ⟨ht, hdr⟩ := ih hall'
    constructor
    · rw [List.cons_append, List.takeWhile_cons, hd]
      simp [ht]
    · rw [List.cons_append, List.dropWhile_cons, hd]
      simp [hdr]

theorem parseDigits_append (ds rest : List Char) (hne : ds ≠ [])
    (hall : ∀ c ∈ ds, c.isDigit = true)
    (hrest : ∀ c, rest.head? = some c → c.isDigit = false) :
    parseDigits (ds ++ rest) = some (digitsVal ds, rest) := by
  obtain ⟨ht, hd⟩ := takeWhile_all_append Char.isDigit ds rest hall hrest
  unfold parseDigits
  rw [ht, hd]
  cases ds with
  | nil => exact absurd rfl hne
  | cons c t => rfl

theorem skipWS1_space (rest : List Char)
    (hrest : ∀ c, rest.head? = some c → c.isWhitespace = false) :
    skipWS1 (' ' :: rest) = some rest := by
  simp only [skipWS1]
  rw [if_pos (by decide : (' '.isWhitespace = true))]
  rw [dropWhile_head_false Char.isWhitespace rest hrest]

theorem optCommaDigits_some (ds rest : List Char) (hne : ds ≠ [])
    (hall : ∀ c ∈ ds, c.isDigit = true)
    (hrest : ∀ c, rest.head? = some c → c.isDigit = false) :
    optCommaDigits (',' :: (ds ++ rest)) = (some (digitsVal ds), rest) := by
  simp only [optCommaDigits]
  rw [parseDigits_append ds rest hne hall hrest]

end CodeDNA

namespace CodeDNA

theorem skipWS1_space_cons (ch : Char) (t : List Char)
    (hch : ch.isWhitespace = false) :
    skipWS1 (' ' :: ch :: t) = some (ch :: t) := by
  refine skipWS1_space (ch :: t) ?_
  intro c hc
  have hcc : ch = c := by simpa using hc
  rw [← hcc]
  exact hch

theorem head_commaPart_not_digit (b : Option (List Char)) (x : List Char) :
    ∀ ch, (commaPart b ++ (' ' :: x)).head? = some ch → ch.isDigit = false := by
  intro ch hch
  cases b with
  | none =>
    have h1 : (' ' : Char) = ch := by simpa [commaPart] using hch
    rw [← h1]
    decide
  | some bs =>
    have h1 : (',' : Char) = ch := by simpa [commaPart] using hch
    rw [← h1]
    decide

theorem optCommaDigits_commaPart (b : Option (List Char)) (x : List Char)
    (hb : ∀ bs, b = some bs → bs ≠ [] ∧ ∀ ch ∈ bs, ch.isDigit = true) :
    optCommaDigits (commaPart b ++ (' ' :: x)) = (b.map digitsVal, ' ' :: x) := by
  cases b with
  | none => rfl
  | some bs =>
    obtain ⟨hne, hall⟩ := hb bs rfl
    have hrest : ∀ c, (' ' :: x).head? = some c → c.isDigit = false := by
      intro c hc
      have h1 : (' ' : Char) = c := by simpa using hc
      rw [← h1]
      decide
    have h := optCommaDigits_some bs (' ' :: x) hne hall hrest
    simpa [commaPart] using h

/-- The literal header `@@ -a[,b] +c[,d] @@` matches the pattern and
captures the `+c` number and the optional `,d` number. -/
theorem matchChunkHeader_spec (a c : List Char) (b d : Option (List Char))
    (hane : a ≠ []) (haall : ∀ ch ∈ a, ch.isDigit = true)
    (hcne : c ≠ []) (hcall : ∀ ch ∈ c, ch.isDigit = true)
    (hb : ∀ bs, b = some bs → bs ≠ [] ∧ ∀ ch ∈ bs, ch.isDigit = true)
    (hd : ∀ ds, d = some ds → ds ≠ [] ∧ ∀ ch ∈ ds, ch.isDigit = true) :
    matchChunkHeader (hunkHeaderChars a b c d)
      = some (digitsVal c, d.map digitsVal) := by
  have hsplit : hunkHeaderChars a b c d
      = '@' :: '@' :: ' ' :: '-' ::
        (a ++ (commaPart b ++ (' ' :: '+' ::
          (c ++ (commaPart d ++ (' ' :: '@' :: '@' :: [])))))) := rfl
  rw [hsplit]
  simp only [matchChunkHeader]
  rw [skipWS1_space_cons '-' _ (by decide)]
  simp only [Option.some_bind, expectMinus]
  rw [parseDigits_append a _ hane haall (head_commaPart_not_digit b _)]
  simp only [Option.some_bind]
  rw [optCommaDigits_commaPart b _ hb]
  simp only []
  rw [skipWS1_space_cons '+' _ (by decide)]
  simp only [Option.some_bind, expectPlus]
  rw [parseDigits_append c _ hcne hcall (head_commaPart_not_digit d _)]
  simp only [Option.some_bind]
  rw [optCommaDigits_commaPart d _ hd]
  simp only []
  rw [skipWS1_space_cons '@' _ (by decide)]
  simp only [Option.some_bind, expectAtAt]
  rfl

end CodeDNA

namespace CodeDNA

/-- C6: per-hunk new-file range derivation. Structured hunk fields give
`[start, start+count-1]` directly whenever both are present with a
positive count; otherwise the literal header is parsed, where the
captured `+c` number is the start, the optional `,d` count defaults to 1
when omitted, a zero count gives no range, and in particular the header
`@@ -1,0 +1,3 @@` yields the range `[1,3]`. -/
theorem hunk_new_range_extraction :
    (∀ (content : Option String) (s n : Nat), 0 < n →
        chunkRange { content := content, newStart := some s, newLines := some n }
          = some { start := s, stop := s + n - 1 })
    ∧ (∀ (str : String) (ns nl : Option Nat),
        ns = none ∨ nl = none ∨ nl = some 0 →
        chunkRange { content := some str, newStart := ns, newLines := nl }
          = extractNewRange str)
    ∧ (∀ (a c ds : List Char) (b : Option (List Char)),
        a ≠ [] → (∀ ch ∈ a, ch.isDigit = true) →
        c ≠ [] → (∀ ch ∈ c, ch.isDigit = true) →
        (∀ bs, b = some bs → bs ≠ [] ∧ ∀ ch ∈ bs, ch.isDigit = true) →
        ds ≠ [] → (∀ ch ∈ ds, ch.isDigit = true) →
        extractNewRange (String.mk (hunkHeaderChars a b c (some ds)))
          = if digitsVal ds = 0 then none
            else some { start := digitsVal c, stop := digitsVal c + digitsVal ds - 1 })
    ∧ (∀ (a c : List Char) (b : Option (List Char)),
        a ≠ [] → (∀ ch ∈ a, ch.isDigit = true) →
        c ≠ [] → (∀ ch ∈ c, ch.isDigit = true) →
        (∀ bs, b = some bs → bs ≠ [] ∧ ∀ ch ∈ bs, ch.isDigit = true) →
        extractNewRange (String.mk (hunkHeaderChars a b c none))
          = some { start := digitsVal c, stop := digitsVal c })
    ∧ extractNewRange "@@ -1,0 +1,3 @@" = some { start := 1, stop := 3 } := by
  refine ⟨?_, ?_, ?_, ?_, ?_⟩
  · intro content s n hn
    simp [chunkRange, hn]
  · intro str ns nl h
    rcases h with rfl | rfl | rfl
    · cases nl <;> simp [chunkRange]
    · cases ns <;> simp [chunkRange]
    · cases ns <;> simp [chunkRange]
  · intro a c ds b hane haall hcne hcall hb hdsne hdsall
    have hd : ∀ ds', (some ds : Option (List Char)) = some ds' →
        ds' ≠ [] ∧ ∀ ch ∈ ds', ch.isDigit = true := by
      intro ds' h
      cases h
      exact ⟨hdsne, hdsall⟩
    unfold extractNewRange
    have hdata : (String.mk (hunkHeaderChars a b c (some ds))).data
        = hunkHeaderChars a b c (some ds) := rfl
    rw [hdata, matchChunkHeader_spec a c b (some ds) hane haall hcne hcall hb hd]
    simp only [Option.map_some']
  · intro a c b hane haall hcne hcall hb
    have hd : ∀ ds', (none : Option (List Char)) = some ds' →
        ds' ≠ [] ∧ ∀ ch ∈ ds', ch.isDigit = true := by
      intro ds' h
      cases h
    unfold extractNewRange
    have hdata : (String.mk (hunkHeaderChars a b c none)).data
        = hunkHeaderChars a b c none := rfl
    rw [hdata, matchChunkHeader_spec a c b none hane haall hcne hcall hb hd]
    simp
  · decide

end CodeDNA
